import Mathlib

/-!
Verification of the tree-traversal engine of `src/main.py`: the dispatcher
`traverse`, the depth-first walker `traverse_tree_depth_first` and the
breadth-first walker `traverse_tree_breadth_first`, embedded over rose
trees. A `tree_sitter.Tree` is identified with its root node and a cursor
(`tree.walk()`) with the node it points at, since the source only ever
reads `cursor.node`; `node.walk().node.children` is modelled as
`node.children`, the design-note equivalence of the spec.
-/

namespace TreeSitter

section Defs

/-- A syntax-tree node: a label and an ordered list of children
(immutable, rooted, ordered, arbitrary arity). -/
inductive Node (α : Type) : Type where
  | mk : α → List (Node α) → Node α

variable {α : Type}

/-- The ordered children of a node (`node.children`). -/
def Node.children : Node α → List (Node α)
  | .mk _ cs => cs

/-- The label carried by a node. -/
def Node.label : Node α → α
  | .mk a _ => a

mutual
/-- Number of nodes of the subtree rooted at a node, the node included. -/
def Node.size : Node α → Nat
  | .mk _ cs => 1 + sizeList cs
/-- Total number of nodes of the subtrees rooted at the listed nodes. -/
def sizeList : List (Node α) → Nat
  | [] => 0
  | c :: rest => Node.size c + sizeList rest
end

mutual
/-- `traverse_tree_depth_first` of `src/main.py`: for each child of the node
under the cursor, in order, yield the child and then recurse into it
(`yield child; yield from traverse_tree_depth_first(child.walk())`). -/
def traverse_tree_depth_first : Node α → List (Node α)
  | .mk _ cs => dfsChildren cs
/-- The loop of `traverse_tree_depth_first` over `cursor.node.children`:
each listed child followed by the depth-first enumeration of its subtree. -/
def dfsChildren : List (Node α) → List (Node α)
  | [] => []
  | c :: rest => c :: (traverse_tree_depth_first c ++ dfsChildren rest)
end

/-- One wave of the breadth-first walk, `for _ in range(len(q))` with the
drain count fixed at the start of the pass: drain `n` nodes from the front
of `q`, appending each drained node's children at the back
(`q.extend(node.walk().node.children)`) and yielding the drained node.
Returns (yielded nodes in order, queue left after the pass). -/
def bfsPass : Nat → List (Node α) → List (Node α) × List (Node α)
  | 0, q => ([], q)
  | _ + 1, [] => ([], [])
  | n + 1, node :: q =>
    let r := bfsPass n (q ++ node.children)
    (node :: r.1, r.2)

/-- All children of the listed nodes, in sibling order: the queue contents
after a full wave has drained exactly `q`. -/
def nextLevel (q : List (Node α)) : List (Node α) :=
  q.flatMap Node.children

/-- The recursive body of `traverse_tree_breadth_first` once the queue is
present: run one wave over the current queue, stop when the queue has
emptied (`if len(q) == 0: return`), otherwise recurse on the remaining
queue. -/
def bfsLoop (q : List (Node α)) : List (Node α) :=
  if _h : (bfsPass q.length q).2.length = 0 then (bfsPass q.length q).1
  else (bfsPass q.length q).1 ++ bfsLoop (bfsPass q.length q).2
termination_by sizeList q
decreasing_by
  have happ : ∀ (a b : List (Node α)), sizeList (a ++ b) = sizeList a + sizeList b := by
    intro a b
    induction a with
    | nil => simp [sizeList]
    | cons c rest ih =>
      simp only [List.cons_append, sizeList, List.append_eq, ih]
      omega
  have key : ∀ (n : Nat) (l : List (Node α)),
      sizeList (bfsPass n l).2 + min n l.length ≤ sizeList l := by
    intro n
    induction n with
    | zero => intro l; simp [bfsPass]
    | succ n ih =>
      intro l
      cases l with
      | nil => simp [bfsPass, sizeList]
      | cons node rest =>
        have h1 := ih (rest ++ node.children)
        rw [happ] at h1
        have h2 : sizeList node.children + 1 = Node.size node := by
          cases node with
          | mk a cs => simp only [Node.size, Node.children]; omega
        simp only [bfsPass, sizeList, List.append_eq, List.length_cons,
          List.length_append] at h1 ⊢
        omega
  have hq := key q.length q
  have hne : q ≠ [] := by
    intro hnil
    subst hnil
    simp [bfsPass] at _h
  have hlq : 1 ≤ q.length := by
    cases q with
    | nil => exact absurd rfl hne
    | cons a l => simp
  simp only [min_self] at hq
  omega

/-- `traverse_tree_breadth_first` of `src/main.py` at its public entry
(`q is None`): seed the queue with the children of the node under the
cursor, then run the wave loop. -/
def traverse_tree_breadth_first (t : Node α) : List (Node α) :=
  bfsLoop t.children

/-- The message of the `ValueError` the dispatcher raises for an
unsupported method (the spec's `UnsupportedStrategy`). -/
def unsupportedMessage (method : String) : String :=
  "Value for argument \x27method\x27 " ++ method ++ " not supported."

/-- `traverse` of `src/main.py`: default the method to `"depth_first"` when
it is absent, dispatch to the matching walker, and fail with the
`ValueError` (the spec's `UnsupportedStrategy`) on any other method,
yielding no node in that case. -/
def traverse (ast : Node α) (method : Option String) : Except String (List (Node α)) :=
  let m := method.getD "depth_first"
  if m = "breadth_first" then Except.ok (traverse_tree_breadth_first ast)
  else if m = "depth_first" then Except.ok (traverse_tree_depth_first ast)
  else Except.error (unsupportedMessage m)

mutual
/-- Spec-side comparison definition (glossary): pre-order of a subtree —
visit a node, then recursively visit each child's subtree in order. -/
def preorder : Node α → List (Node α)
  | .mk a cs => Node.mk a cs :: preorderList cs
/-- Spec-side: concatenation of the pre-orders of the listed subtrees. -/
def preorderList : List (Node α) → List (Node α)
  | [] => []
  | c :: rest => preorder c ++ preorderList rest
end

/-- Spec-side: the strict descendants of the root, each tree position
listed exactly once, in pre-order. -/
def strictDescendants (t : Node α) : List (Node α) :=
  preorderList t.children

/-- Spec-side (`totalDescendantCount(T)` of the testable properties): the
number of nodes of the tree other than its root. -/
def totalDescendantCount (t : Node α) : Nat :=
  sizeList t.children

/-- The nodes at depth `k + 1` of a tree whose root's children are `q`:
iterate `nextLevel` `k` times. -/
def levelAt : Nat → List (Node α) → List (Node α)
  | 0, q => q
  | k + 1, q => levelAt k (nextLevel q)

/-- The two traversal strategies the dispatcher accepts. -/
inductive Strategy : Type where
  | depth_first : Strategy
  | breadth_first : Strategy

/-- Where a drained node's children go in the pending list: the depth-first
walker pushes them on the front (a stack), the breadth-first walker appends
them at the back (a queue). -/
def pushChildren : Strategy → List (Node α) → List (Node α) → List (Node α)
  | .depth_first, cs, rest => cs ++ rest
  | .breadth_first, cs, rest => rest ++ cs

/-- One pull from a suspended enumeration: `none` when it is exhausted,
otherwise the yielded node and the state of the rest of the enumeration.
The state is a plain value; an enumeration shares nothing with any other. -/
def machineStep (s : Strategy) : List (Node α) → Option (Node α × List (Node α))
  | [] => none
  | n :: rest => some (n, pushChildren s n.children rest)

/-- Pull at most `k` nodes from an enumeration with pending list `st`. -/
def pullN (s : Strategy) : Nat → List (Node α) → List (Node α)
  | 0, _ => []
  | k + 1, st =>
    match machineStep s st with
    | none => []
    | some (n, st2) => n :: pullN s k st2

/-- Drive two independent enumerations of the same strategy, `true` pulling
from the first and `false` from the second; collect what each produced, in
order. A pull on an exhausted enumeration produces nothing. -/
def interleave (s : Strategy) :
    List Bool → List (Node α) → List (Node α) → List (Node α) × List (Node α)
  | [], _, _ => ([], [])
  | true :: sched, st1, st2 =>
    match machineStep s st1 with
    | none => interleave s sched st1 st2
    | some (n, st3) =>
      let r := interleave s sched st3 st2
      (n :: r.1, r.2)
  | false :: sched, st1, st2 =>
    match machineStep s st2 with
    | none => interleave s sched st1 st2
    | some (n, st3) =>
      let r := interleave s sched st1 st3
      (r.1, n :: r.2)

/-- The chain tree with root label `a` and body the single-child chain
labelled by `l`. -/
def mkChain (a : α) : List α → Node α
  | [] => Node.mk a []
  | b :: rest => Node.mk a [mkChain b rest]

/-- The subtree roots along a chain, outermost first. -/
def chainNodes : List α → List (Node α)
  | [] => []
  | b :: rest => mkChain b rest :: chainNodes rest

/-- Leaf `A1` of the spec's example tree. -/
def exA1 : Node String := Node.mk "A1" []

/-- Node `A` of the spec's example tree, with single child `A1`. -/
def exA : Node String := Node.mk "A" [exA1]

/-- Leaf `B` of the spec's example tree. -/
def exB : Node String := Node.mk "B" []

/-- The spec's example tree: a root with children `[A, B]`, where `A` has
the single child `A1`. -/
def exRoot : Node String := Node.mk "R" [exA, exB]

end Defs

section Lemmas

variable {α : Type}

/-- Every subtree holds at least its own root. -/
theorem Node.size_pos (c : Node α) : 1 ≤ Node.size c := by
  cases c with
  | mk a cs => simp only [Node.size]; omega

/-- `sizeList` adds over list append. -/
theorem sizeList_append (a b : List (Node α)) :
    sizeList (a ++ b) = sizeList a + sizeList b := by
  induction a with
  | nil => simp [sizeList]
  | cons c rest ih =>
    simp only [List.cons_append, sizeList, List.append_eq, ih]
    omega

/-- A list of trees holds at least one node per entry. -/
theorem length_le_sizeList (l : List (Node α)) : l.length ≤ sizeList l := by
  induction l with
  | nil => simp [sizeList]
  | cons c rest ih =>
    have := Node.size_pos c
    simp only [List.length_cons, sizeList]
    omega

/-- The next level of no nodes is empty. -/
theorem nextLevel_nil : nextLevel ([] : List (Node α)) = [] := rfl

/-- The next level of `c :: rest`: the children of `c`, then the rest's. -/
theorem nextLevel_cons (c : Node α) (rest : List (Node α)) :
    nextLevel (c :: rest) = c.children ++ nextLevel rest := by
  simp [nextLevel]

/-- `nextLevel` distributes over append. -/
theorem nextLevel_append (a b : List (Node α)) :
    nextLevel (a ++ b) = nextLevel a ++ nextLevel b := by
  simp [nextLevel]

/-- Replacing every queued node by its children shrinks the total node
count by exactly the number of nodes replaced. -/
theorem sizeList_nextLevel (q : List (Node α)) :
    sizeList (nextLevel q) + q.length = sizeList q := by
  induction q with
  | nil => simp [nextLevel_nil, sizeList]
  | cons c rest ih =>
    cases c with
    | mk a cs =>
      rw [nextLevel_cons, sizeList_append]
      simp only [Node.children, sizeList, Node.size, List.length_cons]
      omega

/-- The strict decrease used for termination: a nonempty queue's next level
holds strictly fewer nodes, counted with their subtrees. -/
theorem sizeList_nextLevel_lt (q : List (Node α)) (hq : q ≠ []) :
    sizeList (nextLevel q) < sizeList q := by
  have h1 := sizeList_nextLevel q
  have h2 : 1 ≤ q.length := by
    cases q with
    | nil => exact absurd rfl hq
    | cons a l => simp
  omega

/-- A wave that drains `n ≤ len(q)` nodes yields exactly the first `n`
queued nodes, in order, and leaves the rest of the queue followed by the
children of the drained nodes. -/
theorem bfsPass_eq_of_le :
    ∀ (n : Nat) (q : List (Node α)), n ≤ q.length →
      bfsPass n q = (q.take n, q.drop n ++ nextLevel (q.take n)) := by
  intro n
  induction n with
  | zero => intro q h; simp [bfsPass, nextLevel_nil]
  | succ n ih =>
    intro q h
    cases q with
    | nil => simp at h
    | cons c rest =>
      have hn : n ≤ rest.length := by
        simp only [List.length_cons] at h
        omega
      have hr : n ≤ (rest ++ c.children).length := by
        simp only [List.length_append]
        omega
      have h1 := ih (rest ++ c.children) hr
      simp only [bfsPass, h1, List.take_succ_cons, List.drop_succ_cons,
        List.take_append_of_le_length hn, List.drop_append_of_le_length hn,
        nextLevel_cons, List.append_assoc]

/-- A full wave (`for _ in range(len(q))`) yields exactly the queue as it
stood when the pass began and leaves exactly the next level. -/
theorem bfsPass_full (q : List (Node α)) :
    bfsPass q.length q = (q, nextLevel q) := by
  have h := bfsPass_eq_of_le q.length q le_rfl
  simpa using h

/-- The wave loop on an empty queue yields nothing. -/
theorem bfsLoop_nil : bfsLoop ([] : List (Node α)) = [] := by
  rw [bfsLoop]
  simp [bfsPass]

/-- The level recurrence of the wave loop: yield the current queue, then
run on the level below. -/
theorem bfsLoop_eq (q : List (Node α)) :
    bfsLoop q = q ++ bfsLoop (nextLevel q) := by
  conv_lhs => rw [bfsLoop]
  simp only [bfsPass_full]
  by_cases hz : (nextLevel q).length = 0
  · have he : nextLevel q = [] := List.length_eq_zero.mp hz
    simp [hz, he, bfsLoop_nil]
  · simp [hz]

/-- The depth-first walker seen from the root: its loop over the root's
children. -/
theorem dfs_eq (t : Node α) :
    traverse_tree_depth_first t = dfsChildren t.children := by
  cases t with
  | mk a cs => simp [traverse_tree_depth_first, Node.children]

/-- The depth-first loop splits over append. -/
theorem dfsChildren_append (a b : List (Node α)) :
    dfsChildren (a ++ b) = dfsChildren a ++ dfsChildren b := by
  induction a with
  | nil => simp [dfsChildren]
  | cons c rest ih =>
    simp [dfsChildren, List.append_eq, ih]

/-- The children of a listed tree weigh less than the whole list. -/
theorem sizeList_children_lt (c : Node α) (rest : List (Node α)) :
    sizeList c.children < sizeList (c :: rest) := by
  cases c with
  | mk a cs =>
    simp only [Node.children, sizeList, Node.size]
    omega

/-- Dropping the head tree strictly shrinks the list's node count. -/
theorem sizeList_tail_lt (c : Node α) (rest : List (Node α)) :
    sizeList rest < sizeList (c :: rest) := by
  have := Node.size_pos c
  simp only [sizeList]
  omega

/-- The depth-first walk runs over every strict descendant: its length is
the total node count of the listed subtrees. -/
theorem dfsChildren_length (q : List (Node α)) :
    (dfsChildren q).length = sizeList q := by
  cases q with
  | nil => simp [dfsChildren, sizeList]
  | cons c rest =>
    have h1 := dfsChildren_length c.children
    have h2 := dfsChildren_length rest
    have h4 : Node.size c = 1 + sizeList c.children := by
      cases c with
      | mk a cs => simp [Node.size, Node.children]
    simp only [dfsChildren, List.length_cons, List.length_append, dfs_eq,
      h1, h2, sizeList]
    omega
termination_by sizeList q
decreasing_by
  all_goals subst_vars
  all_goals first
    | exact sizeList_children_lt _ _
    | exact sizeList_tail_lt _ _

/-- The source's depth-first loop is the spec's pre-order of the listed
subtrees. -/
theorem preorderList_eq (q : List (Node α)) :
    preorderList q = dfsChildren q := by
  cases q with
  | nil => simp [preorderList, dfsChildren]
  | cons c rest =>
    have h1 := preorderList_eq c.children
    have h2 := preorderList_eq rest
    cases c with
    | mk a cs =>
      simp only [Node.children] at h1
      simp only [preorderList, preorder, dfsChildren, dfs_eq, Node.children,
        h1, h2, List.cons_append]
termination_by sizeList q
decreasing_by
  all_goals subst_vars
  all_goals first
    | exact sizeList_children_lt _ _
    | exact sizeList_tail_lt _ _

/-- Pre-orders of the listed subtrees, concatenated. -/
theorem flatMap_preorder (q : List (Node α)) :
    q.flatMap preorder = preorderList q := by
  induction q with
  | nil => simp [preorderList]
  | cons c rest ih => simp [preorderList, ih]

/-- Any node the depth-first loop yields roots a subtree no larger than the
listed subtrees together. -/
theorem mem_dfsChildren_size (n : Node α) (q : List (Node α))
    (h : n ∈ dfsChildren q) : Node.size n ≤ sizeList q := by
  cases q with
  | nil => simp [dfsChildren] at h
  | cons c rest =>
    simp only [dfsChildren, List.mem_cons, List.mem_append, dfs_eq] at h
    rcases h with h | h | h
    · subst h
      simp only [sizeList]
      omega
    · have h5 := mem_dfsChildren_size n c.children h
      have h6 := sizeList_children_lt c rest
      omega
    · have h5 := mem_dfsChildren_size n rest h
      have h6 := sizeList_tail_lt c rest
      omega
termination_by sizeList q
decreasing_by
  all_goals subst_vars
  all_goals first
    | exact sizeList_children_lt _ _
    | exact sizeList_tail_lt _ _

/-- Reordering the depth-first enumeration: the listed nodes, then the
depth-first enumeration of the level below. -/
theorem dfsChildren_perm_levels (q : List (Node α)) :
    List.Perm (dfsChildren q) (q ++ dfsChildren (nextLevel q)) := by
  induction q with
  | nil => simp [dfsChildren, nextLevel_nil]
  | cons c rest ih =>
    simp only [dfsChildren, dfs_eq, nextLevel_cons, dfsChildren_append,
      List.cons_append]
    refine List.Perm.cons c ?_
    have s1 : List.Perm (dfsChildren c.children ++ dfsChildren rest)
        (dfsChildren c.children ++ (rest ++ dfsChildren (nextLevel rest))) :=
      List.Perm.append_left _ ih
    have s2 : List.Perm
        (dfsChildren c.children ++ (rest ++ dfsChildren (nextLevel rest)))
        ((rest ++ dfsChildren (nextLevel rest)) ++ dfsChildren c.children) :=
      List.perm_append_comm
    have s3 : List.Perm
        ((rest ++ dfsChildren (nextLevel rest)) ++ dfsChildren c.children)
        (rest ++ (dfsChildren c.children ++ dfsChildren (nextLevel rest))) := by
      rw [List.append_assoc]
      exact List.Perm.append_left rest List.perm_append_comm
    exact (s1.trans s2).trans s3

/-- The wave loop yields a permutation of the depth-first enumeration of
the queued subtrees. -/
theorem bfsLoop_perm (q : List (Node α)) :
    List.Perm (bfsLoop q) (dfsChildren q) := by
  by_cases hq : q = []
  · subst hq
    simp [bfsLoop_nil, dfsChildren]
  · have ih := bfsLoop_perm (nextLevel q)
    rw [bfsLoop_eq q]
    exact (List.Perm.append_left q ih).trans (dfsChildren_perm_levels q).symm
termination_by sizeList q
decreasing_by
  exact sizeList_nextLevel_lt q hq

/-- Queue interchange for the wave loop: pulling a prefix `a` of the queue
to the front of the output defers its children past `b`. -/
theorem bfsLoop_append (a b : List (Node α)) :
    bfsLoop (a ++ b) = a ++ bfsLoop (b ++ nextLevel a) := by
  by_cases ha : a = []
  · subst ha
    simp [nextLevel_nil]
  · have ih := bfsLoop_append (nextLevel a) (nextLevel b)
    calc bfsLoop (a ++ b)
        = (a ++ b) ++ bfsLoop (nextLevel (a ++ b)) := bfsLoop_eq _
      _ = a ++ (b ++ bfsLoop (nextLevel a ++ nextLevel b)) := by
          rw [nextLevel_append, List.append_assoc]
      _ = a ++ (b ++ (nextLevel a ++
            bfsLoop (nextLevel b ++ nextLevel (nextLevel a)))) := by
          rw [ih]
      _ = a ++ ((b ++ nextLevel a) ++
            bfsLoop (nextLevel (b ++ nextLevel a))) := by
          rw [nextLevel_append, List.append_assoc]
      _ = a ++ bfsLoop (b ++ nextLevel a) := by
          rw [← bfsLoop_eq]
termination_by sizeList (a ++ b)
decreasing_by
  rw [← nextLevel_append]
  exact sizeList_nextLevel_lt (a ++ b) (by simp [ha])

/-- The wave loop drains the queue one node at a time: the head is yielded
and its children are appended at the back. -/
theorem bfsLoop_cons (c : Node α) (rest : List (Node α)) :
    bfsLoop (c :: rest) = c :: bfsLoop (rest ++ c.children) := by
  have h := bfsLoop_append [c] rest
  simpa [nextLevel] using h

/-- An exhausted enumeration yields nothing, however often it is pulled. -/
theorem pullN_nil (s : Strategy) (k : Nat) :
    pullN s k ([] : List (Node α)) = [] := by
  cases k <;> simp [pullN, machineStep]

/-- Pulling `k` nodes from a fresh depth-first enumeration returns the
first `k` nodes of the depth-first sequence. -/
theorem pullN_dfs (k : Nat) (st : List (Node α)) :
    pullN Strategy.depth_first k st = (dfsChildren st).take k := by
  induction k generalizing st with
  | zero => simp [pullN]
  | succ k ih =>
    cases st with
    | nil => simp [pullN, machineStep, dfsChildren]
    | cons c rest =>
      simp only [pullN, machineStep, pushChildren, ih, dfsChildren, dfs_eq,
        List.take_succ_cons, dfsChildren_append]

/-- Pulling `k` nodes from a fresh breadth-first enumeration returns the
first `k` nodes of the breadth-first sequence. -/
theorem pullN_bfs (k : Nat) (q : List (Node α)) :
    pullN Strategy.breadth_first k q = (bfsLoop q).take k := by
  induction k generalizing q with
  | zero => simp [pullN]
  | succ k ih =>
    cases q with
    | nil => simp [pullN, machineStep, bfsLoop_nil]
    | cons c rest =>
      simp only [pullN, machineStep, pushChildren, ih, bfsLoop_cons,
        List.take_succ_cons]

/-- Interleaving two enumerations is non-interfering: each side's output
depends only on how many times that side was pulled. -/
theorem interleave_eq (s : Strategy) (sched : List Bool)
    (st1 st2 : List (Node α)) :
    interleave s sched st1 st2 =
      (pullN s (sched.count true) st1, pullN s (sched.count false) st2) := by
  induction sched generalizing st1 st2 with
  | nil => simp [interleave, pullN]
  | cons b sched ih =>
    cases b
    · cases st2 with
      | nil =>
        simp [interleave, machineStep, ih, pullN_nil, List.count_cons]
      | cons c rest =>
        simp [interleave, machineStep, ih, pullN, List.count_cons]
    · cases st1 with
      | nil =>
        simp [interleave, machineStep, ih, pullN_nil, List.count_cons]
      | cons c rest =>
        simp [interleave, machineStep, ih, pullN, List.count_cons]

/-- The wave loop enumerates the levels in order: some `m` passes cover
the whole tree, wave `k` yielding exactly the nodes at depth `k + 1`. -/
theorem bfsLoop_levels (q : List (Node α)) :
    ∃ m, bfsLoop q = (List.range m).flatMap (fun k => levelAt k q) ∧
      levelAt m q = [] := by
  by_cases hq : q = []
  · subst hq
    exact ⟨0, by simp [bfsLoop_nil], rfl⟩
  · obtain ⟨m, hm, hm0⟩ := bfsLoop_levels (nextLevel q)
    refine ⟨m + 1, ?_, ?_⟩
    · rw [bfsLoop_eq, hm, List.range_succ_eq_map]
      simp only [List.flatMap_cons, List.flatMap_map, levelAt]
    · show levelAt (m + 1) q = []
      simpa [levelAt] using hm0
termination_by sizeList q
decreasing_by
  exact sizeList_nextLevel_lt q hq

/-- Depth-first over a single-child chain: the chain's nodes, top down. -/
theorem chain_dfs (a : α) (l : List α) :
    traverse_tree_depth_first (mkChain a l) = chainNodes l := by
  induction l generalizing a with
  | nil => simp [mkChain, dfs_eq, Node.children, dfsChildren, chainNodes]
  | cons b rest ih =>
    have hch : (mkChain a (b :: rest)).children = [mkChain b rest] := rfl
    rw [dfs_eq, hch]
    simp [dfsChildren, chainNodes, ih b]

/-- Breadth-first over a single-child chain: the chain's nodes, top down. -/
theorem chain_bfs (a : α) (l : List α) :
    traverse_tree_breadth_first (mkChain a l) = chainNodes l := by
  induction l generalizing a with
  | nil =>
    simp [mkChain, traverse_tree_breadth_first, Node.children, bfsLoop_nil,
      chainNodes]
  | cons b rest ih =>
    have hc := ih b
    simp only [traverse_tree_breadth_first] at hc
    have hch : (mkChain a (b :: rest)).children = [mkChain b rest] := rfl
    simp only [traverse_tree_breadth_first, hch, bfsLoop_cons,
      List.nil_append]
    simp [chainNodes, hc]

end Lemmas

section Claims

/-- Claim C1: breadth-first traversal enumerates nodes level by level — the
output is the concatenation of the levels in order (all children of the
root before any grandchild, sibling order preserved within each level,
since each level is built by `nextLevel` in sibling order); the drain count
of a pass is fixed to the queue length observed at the pass's start, a full
pass yielding exactly that queue and leaving exactly the next level; and on
the example tree (root children `[A, B]`, `A` with child `[A1]`) the
breadth-first sequence is `[A, B, A1]`. -/
theorem breadth_first_level_order :
    (∀ (α : Type) (t : Node α), ∃ m,
        traverse_tree_breadth_first t =
          (List.range m).flatMap (fun k => levelAt k t.children) ∧
        levelAt m t.children = []) ∧
    (∀ (α : Type) (q : List (Node α)),
        bfsPass q.length q = (q, nextLevel q)) ∧
    traverse exRoot (some "breadth_first") = Except.ok [exA, exB, exA1] := by
  refine ⟨?_, ?_, ?_⟩
  · intro α t
    exact bfsLoop_levels t.children
  · intro α q
    exact bfsPass_full q
  · simp [traverse, exRoot, exA, exA1, exB, traverse_tree_breadth_first,
      Node.children, bfsLoop_cons, bfsLoop_nil]

/-- Claim C2, counterexample: the claim counts the root itself among the
nodes visited exactly once, but on a single-node tree both walkers yield
the empty sequence, so the root is visited zero times. -/
theorem root_visited_counterexample :
    Node.mk 0 ([] : List (Node Nat)) ∉
        traverse_tree_depth_first (Node.mk 0 ([] : List (Node Nat))) ∧
    Node.mk 0 ([] : List (Node Nat)) ∉
        traverse_tree_breadth_first (Node.mk 0 ([] : List (Node Nat))) := by
  constructor
  · simp [dfs_eq, Node.children, dfsChildren]
  · simp [traverse_tree_breadth_first, Node.children, bfsLoop_nil]

/-- Claim C2, amended: for both strategies, every node strictly reachable
from the root — the root itself excluded — is visited exactly once: each
traversal is a permutation of the pre-order list of strict descendants,
which lists every tree position exactly once; the order is a function of
the tree alone, and the tree, a pure value, is not mutated. -/
theorem visited_exactly_once :
    ∀ (α : Type) (t : Node α),
      List.Perm (traverse_tree_depth_first t) (strictDescendants t) ∧
      List.Perm (traverse_tree_breadth_first t) (strictDescendants t) := by
  intro α t
  constructor
  · rw [dfs_eq, strictDescendants, preorderList_eq]
  · rw [strictDescendants, preorderList_eq]
    simp only [traverse_tree_breadth_first]
    exact bfsLoop_perm t.children

/-- Claim C3: a strategy selector that is neither depth_first nor
breadth_first makes `traverse` fail with the unsupported-strategy error
(the spec's `UnsupportedStrategy`), yielding no node. -/
theorem traverse_rejects_unknown_method :
    ∀ (α : Type) (t : Node α) (s : String),
      s ≠ "breadth_first" → s ≠ "depth_first" →
      traverse t (some s) = Except.error (unsupportedMessage s) := by
  intro α t s h1 h2
  simp [traverse, h1, h2]

/-- Claim C3, witness: requesting strategy "bfs" raises the error. -/
theorem traverse_rejects_unknown_method_witness :
    traverse (Node.mk (0 : Nat) []) (some "bfs") =
      Except.error (unsupportedMessage "bfs") :=
  traverse_rejects_unknown_method Nat (Node.mk 0 []) "bfs" (by decide)
    (by decide)

/-- Claim C4: depth-first traversal is pre-order — each child is yielded
and then its subtree fully enumerated (recursively depth-first) before the
next sibling, i.e. the output is the concatenation of the children's
spec-side pre-orders; on the example tree (root children `[A, B]`, `A` with
child `[A1]`) the depth-first sequence is `[A, A1, B]`. -/
theorem depth_first_is_preorder :
    (∀ (α : Type) (t : Node α),
        traverse_tree_depth_first t = t.children.flatMap preorder) ∧
    traverse exRoot (some "depth_first") = Except.ok [exA, exA1, exB] := by
  constructor
  · intro α t
    rw [dfs_eq, flatMap_preorder, preorderList_eq]
  · simp [traverse, exRoot, exA, exA1, exB, dfs_eq, Node.children,
      dfsChildren]

/-- Claim C5: for every finite tree the two traversals have equal length,
that length is the total strict-descendant count, and the two sequences are
permutations of each other (same nodes, each exactly once, only the order
differs). -/
theorem traversals_agree :
    ∀ (α : Type) (t : Node α),
      (traverse_tree_depth_first t).length = totalDescendantCount t ∧
      (traverse_tree_breadth_first t).length = totalDescendantCount t ∧
      List.Perm (traverse_tree_depth_first t)
        (traverse_tree_breadth_first t) := by
  intro α t
  have hd : (traverse_tree_depth_first t).length = totalDescendantCount t := by
    rw [dfs_eq, dfsChildren_length, totalDescendantCount]
  refine ⟨hd, ?_, ?_⟩
  · simp only [traverse_tree_breadth_first]
    rw [(bfsLoop_perm t.children).length_eq, dfsChildren_length,
      totalDescendantCount]
  · rw [dfs_eq]
    simp only [traverse_tree_breadth_first]
    exact (bfsLoop_perm t.children).symm

/-- Claim C6: the breadth-first walk terminates — a full pass consumes
exactly the previously queued items (leaving only the next level), a
nonempty queue's next level carries strictly fewer nodes so the queue
measure empties across passes, and the resulting sequence is finite with
exactly one entry per strict descendant. -/
theorem breadth_first_terminates :
    (∀ (α : Type) (q : List (Node α)),
        bfsPass q.length q = (q, nextLevel q)) ∧
    (∀ (α : Type) (q : List (Node α)), q ≠ [] →
        sizeList (nextLevel q) < sizeList q) ∧
    (∀ (α : Type) (t : Node α),
        (traverse_tree_breadth_first t).length = totalDescendantCount t) := by
  refine ⟨?_, ?_, ?_⟩
  · intro α q
    exact bfsPass_full q
  · intro α q hq
    exact sizeList_nextLevel_lt q hq
  · intro α t
    simp only [traverse_tree_breadth_first]
    rw [(bfsLoop_perm t.children).length_eq, dfsChildren_length,
      totalDescendantCount]

/-- Claim C6, witness: the decrease at a concrete nonempty queue. -/
theorem breadth_first_terminates_witness :
    sizeList (nextLevel [Node.mk (0 : Nat) []]) <
      sizeList [Node.mk (0 : Nat) []] :=
  breadth_first_terminates.2.1 Nat [Node.mk 0 []] (by simp)

/-- Claim C7: two calls of `traverse` on the same tree with the same valid
strategy yield the same canonical sequence, and driving two independently
created enumerations in any interleaving is non-interfering — each side's
output is exactly the prefix of that same sequence of length the number of
its own pulls, unaffected by how much the other side consumed. -/
theorem traverse_two_runs_independent :
    ∀ (α : Type) (t : Node α) (sched : List Bool),
      (traverse t (some "depth_first") =
          Except.ok (traverse_tree_depth_first t) ∧
        interleave Strategy.depth_first sched t.children t.children =
          ((traverse_tree_depth_first t).take (sched.count true),
            (traverse_tree_depth_first t).take (sched.count false))) ∧
      (traverse t (some "breadth_first") =
          Except.ok (traverse_tree_breadth_first t) ∧
        interleave Strategy.breadth_first sched t.children t.children =
          ((traverse_tree_breadth_first t).take (sched.count true),
            (traverse_tree_breadth_first t).take (sched.count false))) := by
  intro α t sched
  refine ⟨⟨?_, ?_⟩, ⟨?_, ?_⟩⟩
  · simp [traverse]
  · rw [interleave_eq, pullN_dfs, pullN_dfs, dfs_eq]
  · simp [traverse]
  · rw [interleave_eq, pullN_bfs, pullN_bfs]
    simp only [traverse_tree_breadth_first]

/-- Claim C8: on single-path chain trees the two strategies coincide: any
chain yields the identical sequence under both, and the chain
root→X→Y→Z yields `[X, Y, Z]` under both. -/
theorem chain_strategies_agree :
    (∀ (α : Type) (a : α) (l : List α),
        traverse_tree_depth_first (mkChain a l) =
          traverse_tree_breadth_first (mkChain a l)) ∧
    (∀ (α : Type) (r x y z : α),
        traverse_tree_depth_first
            (Node.mk r [Node.mk x [Node.mk y [Node.mk z []]]]) =
          [Node.mk x [Node.mk y [Node.mk z []]], Node.mk y [Node.mk z []],
            Node.mk z []] ∧
        traverse_tree_breadth_first
            (Node.mk r [Node.mk x [Node.mk y [Node.mk z []]]]) =
          [Node.mk x [Node.mk y [Node.mk z []]], Node.mk y [Node.mk z []],
            Node.mk z []]) := by
  constructor
  · intro α a l
    rw [chain_dfs, chain_bfs]
  · intro α r x y z
    have h1 := chain_dfs r [x, y, z]
    have h2 := chain_bfs r [x, y, z]
    simp only [mkChain, chainNodes] at h1 h2
    exact ⟨h1, h2⟩

/-- Claim C9: an omitted strategy selector behaves exactly as depth_first —
`traverse` with no selector equals `traverse` with "depth_first" and
succeeds with the depth-first sequence, never an error. -/
theorem traverse_default_depth_first :
    ∀ (α : Type) (t : Node α),
      traverse t none = traverse t (some "depth_first") ∧
      traverse t none = Except.ok (traverse_tree_depth_first t) := by
  intro α t
  constructor <;> simp [traverse]

/-- Claim C10: neither walker ever yields the root node itself — both start
from the root's children, the enumeration is exactly (a permutation of) the
strict descendants, and a childless root yields the empty sequence under
both strategies. -/
theorem root_never_yielded :
    (∀ (α : Type) (t : Node α),
        t ∉ traverse_tree_depth_first t ∧
        t ∉ traverse_tree_breadth_first t) ∧
    (∀ (α : Type) (t : Node α),
        List.Perm (traverse_tree_depth_first t) (strictDescendants t) ∧
        List.Perm (traverse_tree_breadth_first t) (strictDescendants t)) ∧
    (∀ (α : Type) (t : Node α), t.children = [] →
        traverse_tree_depth_first t = [] ∧
        traverse_tree_breadth_first t = []) := by
  refine ⟨?_, ?_, ?_⟩
  · intro α t
    have hroot : Node.size t = 1 + sizeList t.children := by
      cases t with
      | mk a cs => simp [Node.size, Node.children]
    constructor
    · intro hmem
      rw [dfs_eq] at hmem
      have h1 := mem_dfsChildren_size t t.children hmem
      omega
    · intro hmem
      simp only [traverse_tree_breadth_first] at hmem
      rw [(bfsLoop_perm t.children).mem_iff] at hmem
      have h1 := mem_dfsChildren_size t t.children hmem
      omega
  · intro α t
    constructor
    · rw [dfs_eq, strictDescendants, preorderList_eq]
    · rw [strictDescendants, preorderList_eq]
      simp only [traverse_tree_breadth_first]
      exact bfsLoop_perm t.children
  · intro α t hc
    constructor
    · rw [dfs_eq, hc]
      simp [dfsChildren]
    · simp only [traverse_tree_breadth_first]
      rw [hc]
      exact bfsLoop_nil

/-- Claim C10, witness: the single-node tree at label 0. -/
theorem root_never_yielded_witness :
    Node.mk (0 : Nat) [] ∉
        traverse_tree_depth_first (Node.mk (0 : Nat) []) ∧
    traverse_tree_depth_first (Node.mk (0 : Nat) []) = [] ∧
    traverse_tree_breadth_first (Node.mk (0 : Nat) []) = [] :=
  ⟨(root_never_yielded.1 Nat (Node.mk 0 [])).1,
    (root_never_yielded.2.2 Nat (Node.mk 0 []) rfl).1,
    (root_never_yielded.2.2 Nat (Node.mk 0 []) rfl).2⟩

end Claims

end TreeSitter
